import Mathlib

/-!
Shallow embedding of `pulizia.py` (repository TheKnife).

The script reads a semicolon-delimited CSV into a pandas DataFrame, drops
rows whose every field is missing, applies the text normalizer
`pulisci_testo` to a fixed list of text columns (when present), and writes
the result back out with `to_csv(index=False, sep=';', na_rep='')`.

Cells are modelled as `Option String` (missing = `none`), strings as their
`List Char` of code points. Regular-expression substitutions are modelled
character-wise, exactly following the character classes of the source
patterns.
-/

/-- Character class of the source regex `[^A-Za-z0-9\- ]` (`pulizia.py`
line 18): ASCII letters, ASCII digits, the hyphen and the space are the
admitted characters; every other character is replaced by a space. -/
def isAllowedChar (c : Char) : Bool :=
  (65 ≤ c.toNat && c.toNat ≤ 90) ||
  (97 ≤ c.toNat && c.toNat ≤ 122) ||
  (48 ≤ c.toNat && c.toNat ≤ 57) ||
  c == '-' || c == ' '

/-- Whitespace class of Python's `\s` on `str` patterns (and of
`str.strip`): the ASCII whitespace characters together with the Unicode
whitespace code points. This is the class used by
`re.sub(r'\s+', ' ', testo).strip()` in `pulizia.py` line 21. -/
def isPySpace (c : Char) : Bool :=
  c == ' ' ||
  (9 ≤ c.toNat && c.toNat ≤ 13) ||
  (28 ≤ c.toNat && c.toNat ≤ 31) ||
  c.toNat == 0x85 || c.toNat == 0xa0 || c.toNat == 0x1680 ||
  (0x2000 ≤ c.toNat && c.toNat ≤ 0x200a) ||
  c.toNat == 0x2028 || c.toNat == 0x2029 ||
  c.toNat == 0x202f || c.toNat == 0x205f || c.toNat == 0x3000

/-- Modelled from the spec: the transliteration table of the external
`unidecode` library (the library itself is not part of this repository;
the spec describes it as an external collaborator mapping each non-ASCII
character to its nearest ASCII approximation, dropping characters with no
reasonable equivalent). The table is the identity on ASCII code points;
the non-ASCII characters exercised by the spec's examples are mapped to
their documented approximations, and every other non-ASCII character is
dropped (mapped to the empty string), which the claims do not depend on. -/
def unidecodeChar (c : Char) : String :=
  if c.toNat < 128 then String.mk [c]
  else if c == 'é' then "e"
  else if c == 'è' then "e"
  else if c == 'ü' then "u"
  else if c == 'ö' then "o"
  else if c == 'ä' then "a"
  else if c == 'Ä' then "A"
  else if c == 'Ö' then "O"
  else if c == 'Ü' then "U"
  else if c == 'Ø' then "O"
  else if c == 'ø' then "o"
  else if c == 'à' then "a"
  else if c == 'ç' then "c"
  else if c == '–' then "-"
  else if c == '—' then "--"
  else ""

/-- Transliteration of a whole string: concatenation of the per-character
transliterations (the behaviour of `unidecode(testo)`, `pulizia.py`
line 15). -/
def unidecodeStr : List Char → List Char
  | [] => []
  | c :: rest => (unidecodeChar c).data ++ unidecodeStr rest

/-- The substitution `re.sub(r'[^A-Za-z0-9\- ]', ' ', testo)` of
`pulizia.py` line 18: every character outside the admitted class becomes
one space; admitted characters are kept. -/
def filtraCaratteri (l : List Char) : List Char :=
  l.map fun c => if isAllowedChar c then c else ' '

/-- Worker for the substitution `re.sub(r'\s+', ' ', testo)`: the Boolean
flag records whether the previously scanned character belonged to the
current whitespace run, so that each maximal run of whitespace characters
produces exactly one space in the output. -/
def collapseWsAux : Bool → List Char → List Char
  | _, [] => []
  | prevWs, c :: rest =>
    if isPySpace c then
      if prevWs then collapseWsAux true rest
      else ' ' :: collapseWsAux true rest
    else c :: collapseWsAux false rest

/-- The substitution `re.sub(r'\s+', ' ', testo)` of `pulizia.py` line 21:
each maximal run of whitespace characters is replaced by a single space. -/
def collapseWs (l : List Char) : List Char :=
  collapseWsAux false l

/-- Python `str.strip()` on the left end: drop leading whitespace. -/
def lstripWs (l : List Char) : List Char :=
  l.dropWhile isPySpace

/-- Python `str.strip()` on the right end: drop trailing whitespace. -/
def rstripWs (l : List Char) : List Char :=
  (l.reverse.dropWhile isPySpace).reverse

/-- Python `str.strip()`: drop leading and trailing whitespace
(`pulizia.py` line 21). -/
def stripWs (l : List Char) : List Char :=
  rstripWs (lstripWs l)

/-- The text normalizer `pulisci_testo` of `pulizia.py` lines 9-23:
missing values become the empty string; otherwise the value is
transliterated to ASCII, characters outside `[A-Za-z0-9\- ]` are replaced
by spaces, whitespace runs are collapsed to single spaces, and the result
is stripped of leading and trailing whitespace. -/
def pulisci_testo (testo : Option String) : String :=
  match testo with
  | none => ""
  | some s => String.mk (stripWs (collapseWs (filtraCaratteri (unidecodeStr s.data))))

/-- Absence of two consecutive spaces, as a Boolean predicate. -/
def noTwoSpacesB : List Char → Bool
  | a :: b :: rest => !(a == ' ' && b == ' ') && noTwoSpacesB (b :: rest)
  | _ => true

/-- Absence of a leading and of a trailing space, as a Boolean predicate. -/
def noLeadTrailSpaceB (l : List Char) : Bool :=
  !(l.head? == some ' ') && !(l.getLast? == some ' ')

/-- Cleaned form of the spec's data model: admitted alphabet only, no two
consecutive spaces, no leading or trailing space. -/
def cleanedB (l : List Char) : Bool :=
  l.all isAllowedChar && noTwoSpacesB l && noLeadTrailSpaceB l

/-- Modelled from the spec (reference pipeline for the refinement claim,
spec section 4.2 step 4): replace every character that is not in
{A-Z, a-z, 0-9, space, hyphen} with a single space. -/
def spec_charFilter (l : List Char) : List Char :=
  l.map fun c => if isAllowedChar c then c else ' '

/-- Modelled from the spec (reference pipeline for the refinement claim,
spec section 4.2 step 5), fuelled worker: a maximal run of one-or-more
whitespace characters (its head plus the following `dropWhile`) is
replaced by a single space. The fuel argument only bounds the recursion
depth; the list length is always a sufficient fuel. -/
def spec_collapseWsFuel : Nat → List Char → List Char
  | 0, _ => []
  | _ + 1, [] => []
  | fuel + 1, c :: rest =>
    if isPySpace c then ' ' :: spec_collapseWsFuel fuel (rest.dropWhile isPySpace)
    else c :: spec_collapseWsFuel fuel rest

/-- Modelled from the spec (reference pipeline for the refinement claim,
spec section 4.2 step 5): replace every maximal run of one-or-more
whitespace characters with a single space. -/
def spec_collapseWs (l : List Char) : List Char :=
  spec_collapseWsFuel l.length l

/-- Modelled from the spec (reference pipeline for the refinement claim,
spec section 4.2 step 6): remove leading and trailing spaces. -/
def spec_trim (l : List Char) : List Char :=
  ((l.dropWhile (· == ' ')).reverse.dropWhile (· == ' ')).reverse

/-- Modelled from the spec (reference pipeline for the refinement claim,
spec section 4.2): the normalizer as the spec words it, steps 1-6 in
order; step 3 is the external transliteration collaborator. -/
def normalize_spec (x : Option String) : String :=
  match x with
  | none => ""
  | some s => String.mk (spec_trim (spec_collapseWs (spec_charFilter (unidecodeStr s.data))))

/-- The in-memory Table of the spec's data model: an ordered column list
(the header) and an ordered list of rows; a cell is `Option String`,
`none` being a missing value (pandas NaN). -/
structure Table where
  cols : List String
  rows : List (List (Option String))

/-- The statement `df.dropna(how='all', inplace=True)` of `pulizia.py`
line 29, acting on the row list: keep exactly the rows that have at least
one non-missing field. -/
def dropnaAll (rows : List (List (Option String))) : List (List (Option String)) :=
  rows.filter fun r => r.any Option.isSome

/-- The fixed Text Column Set `colonne_testo` of `pulizia.py` line 32. -/
def colonne_testo : List String :=
  ["Nome", "Nazione", "Citta", "Indirizzo", "Delivery", "Online", "Tipo_di_cucina"]

/-- One iteration of the loop of `pulizia.py` lines 33-35: when `col` is
among the Table's columns, overwrite every cell of that column with its
normalized value (`df[col] = df[col].apply(pulisci_testo)`); otherwise
leave the Table unchanged. -/
def normalizeColumn (t : Table) (col : String) : Table :=
  if col ∈ t.cols then
    { cols := t.cols,
      rows := t.rows.map fun r =>
        r.set (t.cols.indexOf col) (some (pulisci_testo (r.getD (t.cols.indexOf col) none))) }
  else t

/-- The whole cleaning loop of `pulizia.py` lines 33-35 over the fixed
Text Column Set. -/
def cleanTable (t : Table) : Table :=
  colonne_testo.foldl normalizeColumn t

/-- Quoting test of the CSV writer (pandas `to_csv` uses QUOTE_MINIMAL):
a field is quoted exactly when it contains the separator, a double quote
or a line break. -/
def csvNeedsQuote (s : String) : Bool :=
  s.data.any fun c => c == ';' || c == '"' || c == '\n' || c == '\r'

/-- Double every double quote, as CSV quoting does inside a quoted field. -/
def escapeQuotes : List Char → List Char
  | [] => []
  | c :: rest => if c == '"' then '"' :: '"' :: escapeQuotes rest else c :: escapeQuotes rest

/-- Serialization of one field by `to_csv`: quoted when needed, plain
otherwise. -/
def csvField (s : String) : String :=
  if csvNeedsQuote s then String.mk ('"' :: (escapeQuotes s.data ++ ['"'])) else s

/-- Serialization of one cell by `to_csv(na_rep='')`: a missing value
becomes the empty field, a present value is serialized as a field. -/
def csvCell : Option String → String
  | none => ""
  | some s => csvField s

/-- Join fields with a separator character, the delimited-line layout of
`to_csv(sep=';')`. -/
def joinSep (sep : Char) : List (List Char) → List Char
  | [] => []
  | [f] => f
  | f :: g :: fs => f ++ sep :: joinSep sep (g :: fs)

/-- One output line: the fields joined by the semicolon separator. -/
def lineOfFields (fields : List String) : String :=
  String.mk (joinSep ';' (fields.map String.data))

/-- The statement `df.to_csv(percorso_output, index=False, encoding='utf-8',
sep=';', na_rep='')` of `pulizia.py` line 38, as the list of output lines:
first the header of column names, then one line per row in Table order,
with no row-index column. -/
def toCsvLines (t : Table) : List String :=
  lineOfFields (t.cols.map csvField) :: t.rows.map fun r => lineOfFields (r.map csvCell)

/-- Inverse reading of a delimited line: split at every separator
occurrence. -/
def splitSep (sep : Char) : List Char → List (List Char)
  | [] => [[]]
  | c :: rest =>
    match splitSep sep rest with
    | [] => [[]]
    | f :: fs => if c == sep then [] :: f :: fs else (c :: f) :: fs

/-- Concrete two-column table used to instantiate the frame theorem: the
second column is not in the Text Column Set. -/
def tabellaEsempio : Table :=
  { cols := ["Nome", "Prezzo"], rows := [[some "Café!", some "€5"]] }

/-- Concrete table used to instantiate the writer theorem. -/
def tabellaScrittura : Table :=
  { cols := ["Nome", "Citta"], rows := [[some "Roma Est", none], [none, some "Bari"]] }

theorem allowed_ascii {c : Char} (h : isAllowedChar c = true) : c.toNat < 128 := by
  simp only [isAllowedChar, Bool.or_eq_true, Bool.and_eq_true, decide_eq_true_eq,
    beq_iff_eq] at h
  rcases h with ((((⟨h1, h2⟩ | ⟨h1, h2⟩) | ⟨h1, h2⟩) | h1) | h1)
  · omega
  · omega
  · omega
  · subst h1; decide
  · subst h1; decide

theorem allowed_pyspace_eq_space {c : Char} (ha : isAllowedChar c = true)
    (hp : isPySpace c = true) : c = ' ' := by
  simp only [isPySpace, Bool.or_eq_true, Bool.and_eq_true, decide_eq_true_eq,
    beq_iff_eq, Nat.beq_eq_true_eq] at hp
  rcases hp with (((((((((((hp | hp) | hp) | hp) | hp) | hp) | hp) | hp) | hp) | hp) | hp) | hp)
  · exact hp
  all_goals {
    exfalso
    simp only [isAllowedChar, Bool.or_eq_true, Bool.and_eq_true, decide_eq_true_eq,
      beq_iff_eq] at ha
    rcases ha with ((((⟨h1, h2⟩ | ⟨h1, h2⟩) | ⟨h1, h2⟩) | h1) | h1) <;>
      first
        | omega
        | (subst h1; revert hp; decide) }

theorem pyspace_space : isPySpace ' ' = true := by decide

theorem not_space_of_not_pyspace {c : Char} (h : isPySpace c = false) : c ≠ ' ' := by
  intro hc; subst hc; exact absurd pyspace_space (by simp [h])

theorem noTwoSpacesB_tail {c : Char} {l : List Char}
    (h : noTwoSpacesB (c :: l) = true) : noTwoSpacesB l = true := by
  cases l with
  | nil => rfl
  | cons b rest =>
    simp only [noTwoSpacesB, Bool.and_eq_true] at h
    exact h.2

theorem noTwoSpacesB_append_left :
    ∀ (l t : List Char), noTwoSpacesB (l ++ t) = true → noTwoSpacesB l = true := by
  intro l
  induction l with
  | nil => intro t _; rfl
  | cons a l ih =>
    intro t h
    cases l with
    | nil => rfl
    | cons b rest =>
      simp only [List.cons_append, noTwoSpacesB, Bool.and_eq_true] at h ⊢
      exact ⟨h.1, ih t h.2⟩

theorem noTwoSpacesB_append_right :
    ∀ (t l : List Char), noTwoSpacesB (t ++ l) = true → noTwoSpacesB l = true := by
  intro t
  induction t with
  | nil => intro l h; exact h
  | cons a t ih =>
    intro l h
    exact ih l (noTwoSpacesB_tail (c := a) h)

theorem head?_dropWhile {p : Char → Bool} :
    ∀ (l : List Char) (c : Char), (l.dropWhile p).head? = some c → p c = false := by
  intro l
  induction l with
  | nil => intro c h; simp [List.dropWhile] at h
  | cons a rest ih =>
    intro c h
    rw [List.dropWhile_cons] at h
    cases hpa : p a with
    | true => rw [hpa] at h; simp only [if_true] at h; exact ih c h
    | false =>
      rw [hpa] at h
      simp only [Bool.false_eq_true, if_false, List.head?_cons, Option.some.injEq] at h
      subst h; exact hpa

theorem dropWhile_eq_self_of_head {p : Char → Bool} {l : List Char}
    (h : ∀ c, l.head? = some c → p c = false) : l.dropWhile p = l := by
  cases l with
  | nil => rfl
  | cons a rest =>
    rw [List.dropWhile_cons, h a rfl]
    simp

theorem dropWhile_congr_mem {p q : Char → Bool} :
    ∀ (l : List Char), (∀ c ∈ l, p c = q c) → l.dropWhile p = l.dropWhile q := by
  intro l
  induction l with
  | nil => intro _; rfl
  | cons a rest ih =>
    intro h
    rw [List.dropWhile_cons, List.dropWhile_cons, h a (List.mem_cons_self a rest),
      ih (fun c hc => h c (List.mem_cons_of_mem a hc))]

theorem noTwoSpacesB_cons_build {x : Char} {m : List Char}
    (hx : ∀ d, m.head? = some d → (x == ' ' && d == ' ') = false)
    (hm : noTwoSpacesB m = true) : noTwoSpacesB (x :: m) = true := by
  cases m with
  | nil => rfl
  | cons d rest =>
    simp only [noTwoSpacesB, Bool.and_eq_true]
    refine ⟨?_, hm⟩
    rw [hx d rfl]
    rfl

theorem mem_collapseWsAux :
    ∀ (l : List Char) (b : Bool) (c : Char), c ∈ collapseWsAux b l →
      c = ' ' ∨ (c ∈ l ∧ isPySpace c = false) := by
  intro l
  induction l with
  | nil => intro b c h; simp [collapseWsAux] at h
  | cons a rest ih =>
    intro b c h
    cases hpa : isPySpace a with
    | true =>
      cases b with
      | true =>
        simp only [collapseWsAux, hpa, if_true] at h
        rcases ih true c h with h1 | ⟨h1, h2⟩
        · exact Or.inl h1
        · exact Or.inr ⟨List.mem_cons_of_mem a h1, h2⟩
      | false =>
        simp [collapseWsAux, hpa] at h
        rcases h with h | h
        · exact Or.inl h
        · rcases ih true c h with h1 | ⟨h1, h2⟩
          · exact Or.inl h1
          · exact Or.inr ⟨List.mem_cons_of_mem a h1, h2⟩
    | false =>
      simp [collapseWsAux, hpa] at h
      rcases h with h | h
      · subst h; exact Or.inr ⟨List.mem_cons_self _ rest, hpa⟩
      · rcases ih false c h with h1 | ⟨h1, h2⟩
        · exact Or.inl h1
        · exact Or.inr ⟨List.mem_cons_of_mem a h1, h2⟩

theorem head?_collapseWsAux_true :
    ∀ (l : List Char) (c : Char), (collapseWsAux true l).head? = some c →
      isPySpace c = false := by
  intro l
  induction l with
  | nil => intro c h; simp [collapseWsAux] at h
  | cons a rest ih =>
    intro c h
    cases hpa : isPySpace a with
    | true =>
      simp only [collapseWsAux, hpa, if_true] at h
      exact ih c h
    | false =>
      have h1 : collapseWsAux true (a :: rest) = a :: collapseWsAux false rest := by
        simp [collapseWsAux, hpa]
      rw [h1, List.head?_cons] at h
      have : a = c := by simpa using h
      exact this ▸ hpa

theorem noTwoSpacesB_collapseWsAux :
    ∀ (l : List Char) (b : Bool), noTwoSpacesB (collapseWsAux b l) = true := by
  intro l
  induction l with
  | nil => intro b; rfl
  | cons a rest ih =>
    intro b
    cases hpa : isPySpace a with
    | true =>
      cases b with
      | true =>
        have h1 : collapseWsAux true (a :: rest) = collapseWsAux true rest := by
          simp [collapseWsAux, hpa]
        rw [h1]; exact ih true
      | false =>
        have h1 : collapseWsAux false (a :: rest) = ' ' :: collapseWsAux true rest := by
          simp [collapseWsAux, hpa]
        rw [h1]
        apply noTwoSpacesB_cons_build
        · intro d hd
          have hdf := head?_collapseWsAux_true rest d hd
          have hdne : d ≠ ' ' := not_space_of_not_pyspace hdf
          simp [beq_eq_false_iff_ne, hdne]
        · exact ih true
    | false =>
      have h1 : collapseWsAux b (a :: rest) = a :: collapseWsAux false rest := by
        simp [collapseWsAux, hpa]
      rw [h1]
      apply noTwoSpacesB_cons_build
      · intro d _
        have hane : a ≠ ' ' := not_space_of_not_pyspace hpa
        simp [beq_eq_false_iff_ne, hane]
      · exact ih false

theorem collapseWsAux_true_eq :
    ∀ (l : List Char), collapseWsAux true l = collapseWsAux false (l.dropWhile isPySpace) := by
  intro l
  induction l with
  | nil => rfl
  | cons a rest ih =>
    cases hpa : isPySpace a with
    | true =>
      have h1 : collapseWsAux true (a :: rest) = collapseWsAux true rest := by
        simp [collapseWsAux, hpa]
      have h2 : (a :: rest).dropWhile isPySpace = rest.dropWhile isPySpace := by
        rw [List.dropWhile_cons, hpa]; simp
      rw [h1, h2, ih]
    | false =>
      have h1 : collapseWsAux true (a :: rest) = a :: collapseWsAux false rest := by
        simp [collapseWsAux, hpa]
      have h2 : (a :: rest).dropWhile isPySpace = a :: rest := by
        rw [List.dropWhile_cons, hpa]; simp
      have h3 : collapseWsAux false (a :: rest) = a :: collapseWsAux false rest := by
        simp [collapseWsAux, hpa]
      rw [h1, h2, h3]

theorem collapseWsAux_fixed :
    ∀ (l : List Char), (∀ c ∈ l, isPySpace c = true → c = ' ') →
      noTwoSpacesB l = true →
      ∀ b : Bool, (b = true → l.head? ≠ some ' ') → collapseWsAux b l = l := by
  intro l
  induction l with
  | nil => intro _ _ b _; rfl
  | cons a rest ih =>
    intro hws hnt b hb
    cases hpa : isPySpace a with
    | false =>
      have h1 : collapseWsAux b (a :: rest) = a :: collapseWsAux false rest := by
        simp [collapseWsAux, hpa]
      rw [h1, ih (fun c hc => hws c (List.mem_cons_of_mem a hc)) (noTwoSpacesB_tail hnt)
        false (by simp)]
    | true =>
      have ha : a = ' ' := hws a (List.mem_cons_self a rest) hpa
      cases b with
      | true =>
        exfalso
        exact hb rfl (by rw [List.head?_cons, ha])
      | false =>
        have h1 : collapseWsAux false (a :: rest) = ' ' :: collapseWsAux true rest := by
          simp [collapseWsAux, hpa]
        have hdrop : rest.dropWhile isPySpace = rest := by
          cases rest with
          | nil => rfl
          | cons e rest2 =>
            rw [List.dropWhile_cons]
            have he : isPySpace e = false := by
              cases hre : isPySpace e with
              | false => rfl
              | true =>
                exfalso
                have he2 : e = ' ' :=
                  hws e (List.mem_cons_of_mem a (List.mem_cons_self e rest2)) hre
                have h4 := hnt
                simp only [noTwoSpacesB, Bool.and_eq_true] at h4
                rcases h4 with ⟨h4, _⟩
                rw [ha, he2] at h4
                simp at h4
            rw [he]; simp
        rw [h1, collapseWsAux_true_eq, hdrop,
          ih (fun c hc => hws c (List.mem_cons_of_mem a hc)) (noTwoSpacesB_tail hnt)
            false (by simp), ha]

theorem mem_of_head?_eq {l : List Char} {c : Char} (h : l.head? = some c) : c ∈ l := by
  cases l with
  | nil => simp at h
  | cons a rest =>
    simp only [List.head?_cons, Option.some.injEq] at h
    subst h
    exact List.mem_cons_self _ _

theorem mem_of_getLast?_eq {l : List Char} {c : Char} (h : l.getLast? = some c) : c ∈ l := by
  rw [List.getLast?_eq_head?_reverse] at h
  exact List.mem_reverse.mp (mem_of_head?_eq h)

theorem rstripWs_append (l : List Char) :
    rstripWs l ++ (l.reverse.takeWhile isPySpace).reverse = l := by
  unfold rstripWs
  rw [← List.reverse_append, List.takeWhile_append_dropWhile, List.reverse_reverse]

theorem head?_rstripWs {l : List Char} {c : Char} (h : (rstripWs l).head? = some c) :
    l.head? = some c := by
  have hsplit := rstripWs_append l
  cases hr : rstripWs l with
  | nil => rw [hr] at h; simp at h
  | cons x xs =>
    rw [hr] at h hsplit
    rw [← hsplit]
    simpa using h

theorem getLast?_rstripWs {l : List Char} {c : Char} (h : (rstripWs l).getLast? = some c) :
    isPySpace c = false := by
  unfold rstripWs at h
  rw [List.getLast?_eq_head?_reverse, List.reverse_reverse] at h
  exact head?_dropWhile _ c h

theorem mem_stripWs {l : List Char} {c : Char} (h : c ∈ stripWs l) : c ∈ l := by
  unfold stripWs rstripWs lstripWs at h
  have h1 := List.mem_reverse.mp h
  have h2 := (List.dropWhile_sublist _).subset h1
  have h3 := List.mem_reverse.mp h2
  exact (List.dropWhile_sublist _).subset h3

theorem noTwoSpacesB_stripWs {l : List Char} (h : noTwoSpacesB l = true) :
    noTwoSpacesB (stripWs l) = true := by
  have h1 : noTwoSpacesB (lstripWs l) = true := by
    apply noTwoSpacesB_append_right (l.takeWhile isPySpace)
    show noTwoSpacesB (List.takeWhile isPySpace l ++ List.dropWhile isPySpace l) = true
    rw [List.takeWhile_append_dropWhile]
    exact h
  apply noTwoSpacesB_append_left _ ((lstripWs l).reverse.takeWhile isPySpace).reverse
  show noTwoSpacesB
    (rstripWs (lstripWs l) ++ ((lstripWs l).reverse.takeWhile isPySpace).reverse) = true
  rw [rstripWs_append]
  exact h1

theorem head?_stripWs {l : List Char} {c : Char} (h : (stripWs l).head? = some c) :
    isPySpace c = false := by
  have h1 : (lstripWs l).head? = some c := head?_rstripWs h
  exact head?_dropWhile _ c h1

theorem getLast?_stripWs {l : List Char} {c : Char} (h : (stripWs l).getLast? = some c) :
    isPySpace c = false :=
  getLast?_rstripWs h

theorem stripWs_fixed {l : List Char}
    (hh : ∀ c, l.head? = some c → isPySpace c = false)
    (hl : ∀ c, l.getLast? = some c → isPySpace c = false) : stripWs l = l := by
  unfold stripWs lstripWs rstripWs
  rw [dropWhile_eq_self_of_head hh]
  rw [dropWhile_eq_self_of_head
    (fun c hc => hl c ((List.head?_reverse l) ▸ hc))]
  exact List.reverse_reverse l

theorem unidecodeStr_ascii_id :
    ∀ (l : List Char), (∀ c ∈ l, c.toNat < 128) → unidecodeStr l = l := by
  intro l
  induction l with
  | nil => intro _; rfl
  | cons a rest ih =>
    intro h
    have ha : a.toNat < 128 := h a (List.mem_cons_self a rest)
    have h1 : unidecodeChar a = String.mk [a] := by
      simp [unidecodeChar, ha]
    show (unidecodeChar a).data ++ unidecodeStr rest = a :: rest
    rw [h1, ih (fun c hc => h c (List.mem_cons_of_mem a hc))]
    rfl

theorem filtraCaratteri_allowed (l : List Char) :
    ∀ c ∈ filtraCaratteri l, isAllowedChar c = true := by
  intro c hc
  unfold filtraCaratteri at hc
  rcases List.mem_map.mp hc with ⟨d, _, hd⟩
  by_cases hda : isAllowedChar d = true
  · rw [if_pos hda] at hd; subst hd; exact hda
  · rw [if_neg hda] at hd; subst hd; decide

theorem filtraCaratteri_id {l : List Char} (h : ∀ c ∈ l, isAllowedChar c = true) :
    filtraCaratteri l = l := by
  have h1 : l.map (fun c => if isAllowedChar c then c else ' ') = l.map id :=
    List.map_congr_left (fun c hc => by rw [if_pos (h c hc)]; rfl)
  show l.map (fun c => if isAllowedChar c then c else ' ') = l
  rw [h1, List.map_id]

theorem cleanedB_pulisci (x : Option String) : cleanedB (pulisci_testo x).data = true := by
  cases x with
  | none => decide
  | some s =>
    show cleanedB (stripWs (collapseWs (filtraCaratteri (unidecodeStr s.data)))) = true
    unfold cleanedB
    rw [Bool.and_eq_true, Bool.and_eq_true]
    refine ⟨⟨?_, ?_⟩, ?_⟩
    · rw [List.all_eq_true]
      intro c hc
      have hc1 : c ∈ collapseWs (filtraCaratteri (unidecodeStr s.data)) := mem_stripWs hc
      rcases mem_collapseWsAux _ false c hc1 with h1 | ⟨h1, _⟩
      · subst h1; decide
      · exact filtraCaratteri_allowed _ c h1
    · exact noTwoSpacesB_stripWs (noTwoSpacesB_collapseWsAux _ false)
    · have hH : ((stripWs (collapseWs (filtraCaratteri (unidecodeStr s.data)))).head?
          == some ' ') = false := by
        cases hh : (stripWs (collapseWs (filtraCaratteri (unidecodeStr s.data)))).head? with
        | none => rfl
        | some c =>
          have hcne : c ≠ ' ' := not_space_of_not_pyspace (head?_stripWs hh)
          simp [hcne]
      have hL : ((stripWs (collapseWs (filtraCaratteri (unidecodeStr s.data)))).getLast?
          == some ' ') = false := by
        cases hh : (stripWs (collapseWs (filtraCaratteri (unidecodeStr s.data)))).getLast? with
        | none => rfl
        | some c =>
          have hcne : c ≠ ' ' := not_space_of_not_pyspace (getLast?_stripWs hh)
          simp [hcne]
      simp [noLeadTrailSpaceB, hH, hL]

theorem pulisci_fixed {s : String} (h : cleanedB s.data = true) :
    pulisci_testo (some s) = s := by
  unfold cleanedB at h
  rw [Bool.and_eq_true, Bool.and_eq_true] at h
  obtain ⟨⟨hall, hnt⟩, hlt⟩ := h
  rw [List.all_eq_true] at hall
  unfold noLeadTrailSpaceB at hlt
  rw [Bool.and_eq_true] at hlt
  obtain ⟨hlt1, hlt2⟩ := hlt
  have hws : ∀ c ∈ s.data, isPySpace c = true → c = ' ' :=
    fun c hc hp => allowed_pyspace_eq_space (hall c hc) hp
  have h1 : unidecodeStr s.data = s.data :=
    unidecodeStr_ascii_id _ (fun c hc => allowed_ascii (hall c hc))
  have h2 : filtraCaratteri s.data = s.data := filtraCaratteri_id hall
  have hhead : ∀ c, s.data.head? = some c → isPySpace c = false := by
    intro c hc
    cases hp : isPySpace c with
    | false => rfl
    | true =>
      exfalso
      have hc2 : c = ' ' := allowed_pyspace_eq_space (hall c (mem_of_head?_eq hc)) hp
      rw [hc2] at hc
      rw [hc] at hlt1
      simp at hlt1
  have hlast : ∀ c, s.data.getLast? = some c → isPySpace c = false := by
    intro c hc
    cases hp : isPySpace c with
    | false => rfl
    | true =>
      exfalso
      have hc2 : c = ' ' := allowed_pyspace_eq_space (hall c (mem_of_getLast?_eq hc)) hp
      rw [hc2] at hc
      rw [hc] at hlt2
      simp at hlt2
  have h3 : collapseWs s.data = s.data :=
    collapseWsAux_fixed s.data hws hnt false (by simp)
  have h4 : stripWs s.data = s.data := stripWs_fixed hhead hlast
  show String.mk (stripWs (collapseWs (filtraCaratteri (unidecodeStr s.data)))) = s
  rw [h1, h2, h3, h4]

theorem pyspace_eq_space_on_collapse (l : List Char) (b : Bool) :
    ∀ c ∈ collapseWsAux b l, isPySpace c = (c == ' ') := by
  intro c hc
  rcases mem_collapseWsAux l b c hc with h | ⟨_, h⟩
  · subst h; decide
  · rw [h]
    cases hcs : c == ' ' with
    | false => rfl
    | true =>
      exfalso
      exact not_space_of_not_pyspace h (beq_iff_eq.mp hcs)

theorem spec_collapseWsFuel_eq :
    ∀ (fuel : Nat) (l : List Char), l.length ≤ fuel →
      spec_collapseWsFuel fuel l = collapseWsAux false l := by
  intro fuel
  induction fuel with
  | zero =>
    intro l hl
    cases l with
    | nil => rfl
    | cons a rest => simp at hl
  | succ fuel ih =>
    intro l hl
    cases l with
    | nil => rfl
    | cons c rest =>
      cases hpc : isPySpace c with
      | true =>
        have h1 : spec_collapseWsFuel (fuel + 1) (c :: rest) =
            ' ' :: spec_collapseWsFuel fuel (rest.dropWhile isPySpace) := by
          simp [spec_collapseWsFuel, hpc]
        have h2 : collapseWsAux false (c :: rest) = ' ' :: collapseWsAux true rest := by
          simp [collapseWsAux, hpc]
        have h3 : (rest.dropWhile isPySpace).length ≤ fuel := by
          have h4 := List.Sublist.length_le (List.dropWhile_sublist (l := rest) isPySpace)
          simp only [List.length_cons] at hl
          omega
        rw [h1, h2, ih _ h3, collapseWsAux_true_eq]
      | false =>
        have h1 : spec_collapseWsFuel (fuel + 1) (c :: rest) =
            c :: spec_collapseWsFuel fuel rest := by
          simp [spec_collapseWsFuel, hpc]
        have h2 : collapseWsAux false (c :: rest) = c :: collapseWsAux false rest := by
          simp [collapseWsAux, hpc]
        have h3 : rest.length ≤ fuel := by
          simp only [List.length_cons] at hl
          omega
        rw [h1, h2, ih _ h3]

theorem spec_collapseWs_eq (l : List Char) : spec_collapseWs l = collapseWs l :=
  spec_collapseWsFuel_eq l.length l (Nat.le_refl _)

theorem spec_trim_eq {m : List Char} (hws : ∀ c ∈ m, isPySpace c = (c == ' ')) :
    spec_trim m = stripWs m := by
  unfold spec_trim stripWs lstripWs rstripWs
  have h1 : m.dropWhile isPySpace = m.dropWhile (fun c => c == ' ') :=
    dropWhile_congr_mem m hws
  rw [← h1]
  have h2 : ∀ c ∈ (m.dropWhile isPySpace).reverse, isPySpace c = (c == ' ') := by
    intro c hc
    exact hws c ((List.dropWhile_sublist _).subset (List.mem_reverse.mp hc))
  rw [← dropWhile_congr_mem _ h2]

/-- Claim C1: for every input value, the normalizer applies exactly the
spec's steps in the spec's order — missing value to empty string, coerce
to text, transliterate, character filter to the admitted alphabet,
whitespace-run collapse, trim — and the result of that sequence is the
returned string: `pulisci_testo` coincides with the step-by-step
reference pipeline `normalize_spec`. -/
theorem normalize_steps_in_order (x : Option String) : pulisci_testo x = normalize_spec x := by
  cases x with
  | none => rfl
  | some s =>
    show String.mk (stripWs (collapseWs (filtraCaratteri (unidecodeStr s.data)))) =
      String.mk (spec_trim (spec_collapseWs (spec_charFilter (unidecodeStr s.data))))
    have h0 : spec_charFilter (unidecodeStr s.data) = filtraCaratteri (unidecodeStr s.data) := rfl
    rw [h0, spec_collapseWs_eq]
    rw [spec_trim_eq (m := collapseWs (filtraCaratteri (unidecodeStr s.data)))
      (pyspace_eq_space_on_collapse _ false)]

/-- Claim C2: the normalizer is idempotent — normalizing an already
normalized value changes nothing, for every string or missing input. -/
theorem normalize_idempotent (x : Option String) :
    pulisci_testo (some (pulisci_testo x)) = pulisci_testo x :=
  pulisci_fixed (cleanedB_pulisci x)

/-- Claim C3: alphabet closure — every character of a normalized value is
an ASCII letter, an ASCII digit, the space or the hyphen. -/
theorem normalize_alphabet_closure (x : Option String) :
    (pulisci_testo x).data.all isAllowedChar = true := by
  have h := cleanedB_pulisci x
  unfold cleanedB at h
  rw [Bool.and_eq_true, Bool.and_eq_true] at h
  exact h.1.1

/-- Claim C4: a normalized value contains no two consecutive spaces and
has neither a leading nor a trailing space. -/
theorem normalize_no_double_space (x : Option String) :
    noTwoSpacesB (pulisci_testo x).data = true ∧
    noLeadTrailSpaceB (pulisci_testo x).data = true := by
  have h := cleanedB_pulisci x
  unfold cleanedB at h
  rw [Bool.and_eq_true, Bool.and_eq_true] at h
  exact ⟨h.1.2, h.2⟩

/-- Claim C5: the normalizer is total with no error conditions; the
missing value normalizes to the empty string and so does the empty
string. -/
theorem normalize_total_missing_empty :
    pulisci_testo none = "" ∧ pulisci_testo (some "") = "" :=
  ⟨rfl, rfl⟩

/-- Claim C8: the four end-to-end examples of the spec. -/
theorem normalize_end_to_end_examples :
    pulisci_testo (some "Café–Münchner") = "Cafe-Munchner" ∧
    pulisci_testo (some "Ärea Ø1") = "Area O1" ∧
    pulisci_testo (some "12 Rue d'Or") = "12 Rue d Or" ∧
    pulisci_testo (some "Italian/French!!") = "Italian French" :=
  ⟨by decide, by decide, by decide, by decide⟩

/-- Claim C10: fixed-point characterization — a string already in cleaned
form (admitted alphabet, no double space, no leading or trailing space)
is left unchanged by the normalizer. -/
theorem normalize_fixed_point (s : String) (h : cleanedB s.data = true) :
    pulisci_testo (some s) = s :=
  pulisci_fixed h

theorem normalize_fixed_point_witness :
    cleanedB ("Ab-3 x".data) = true ∧ pulisci_testo (some "Ab-3 x") = "Ab-3 x" :=
  ⟨by decide, normalize_fixed_point "Ab-3 x" (by decide)⟩

theorem getElem?_indexOf_self {l : List String} {a : String} (h : a ∈ l) :
    l[l.indexOf a]? = some a := by
  rw [List.getElem?_eq_some]
  exact ⟨List.indexOf_lt_length.mpr h, List.getElem_indexOf _⟩

theorem indexOf_ne_of_getElem? {l : List String} {a name : String} {j : Nat}
    (hj : l[j]? = some name) (hne : name ≠ a) : l.indexOf a ≠ j := by
  intro hij
  by_cases ha : a ∈ l
  · have h1 := getElem?_indexOf_self ha
    rw [hij, hj] at h1
    injection h1 with h2
    exact hne h2
  · have h1 : l.indexOf a = l.length := List.indexOf_eq_length.mpr ha
    rw [h1] at hij
    rw [← hij, List.getElem?_eq_none (Nat.le_refl _)] at hj
    exact Option.noConfusion hj

theorem normalizeColumn_cols (t : Table) (c : String) :
    (normalizeColumn t c).cols = t.cols := by
  unfold normalizeColumn
  split <;> rfl

theorem normalizeColumn_rows_length (t : Table) (c : String) :
    (normalizeColumn t c).rows.length = t.rows.length := by
  unfold normalizeColumn
  split
  · simp
  · rfl

theorem normalizeColumn_cell {t : Table} {c : String} {j : Nat} {name : String}
    (hj : t.cols[j]? = some name) (hne : name ≠ c) (k : Nat) :
    (normalizeColumn t c).rows[k]?.map (fun r => r[j]?) =
      t.rows[k]?.map (fun r => r[j]?) := by
  unfold normalizeColumn
  split
  · simp only [List.getElem?_map]
    cases hr : t.rows[k]? with
    | none => rfl
    | some r =>
      simp only [Option.map_some']
      rw [List.getElem?_set_ne (indexOf_ne_of_getElem? hj hne)]
  · rfl

theorem foldl_normalize_frame :
    ∀ (L : List String) (t : Table) (j k : Nat) (name : String),
      t.cols[j]? = some name → name ∉ L →
      (L.foldl normalizeColumn t).cols = t.cols ∧
      (L.foldl normalizeColumn t).rows.length = t.rows.length ∧
      (L.foldl normalizeColumn t).rows[k]?.map (fun r => r[j]?) =
        t.rows[k]?.map (fun r => r[j]?) := by
  intro L
  induction L with
  | nil => intro t j k name _ _; exact ⟨rfl, rfl, rfl⟩
  | cons c L ih =>
    intro t j k name hj hname
    have hname1 : name ≠ c := by
      intro h; subst h; exact hname (List.mem_cons_self _ _)
    have hname2 : name ∉ L := fun h => hname (List.mem_cons_of_mem c h)
    have hj2 : (normalizeColumn t c).cols[j]? = some name := by
      rw [normalizeColumn_cols]; exact hj
    obtain ⟨h1, h2, h3⟩ := ih (normalizeColumn t c) j k name hj2 hname2
    refine ⟨?_, ?_, ?_⟩
    · rw [List.foldl_cons, h1, normalizeColumn_cols]
    · rw [List.foldl_cons, h2, normalizeColumn_rows_length]
    · rw [List.foldl_cons, h3, normalizeColumn_cell hj hname1]

/-- Claim C6: row filtering — dropping all-missing rows keeps exactly the
rows with at least one non-missing field, in the input order (sublist). -/
theorem dropna_row_filtering (rows : List (List (Option String))) :
    List.Sublist (dropnaAll rows) rows ∧
    ∀ r, r ∈ dropnaAll rows ↔ (r ∈ rows ∧ r.any Option.isSome = true) := by
  refine ⟨List.filter_sublist rows, ?_⟩
  intro r
  simp [dropnaAll, List.mem_filter]

/-- Claim C7: column scoping (frame condition) — cleaning the Table keeps
the column list and the number of rows, and every cell that sits in a
column whose name is not in the Text Column Set is left unchanged; a set
member absent from the Table is skipped (the fold is total). -/
theorem column_mapper_frame (t : Table) (j k : Nat) (name : String)
    (hj : t.cols[j]? = some name) (hname : name ∉ colonne_testo) :
    (cleanTable t).cols = t.cols ∧
    (cleanTable t).rows.length = t.rows.length ∧
    (cleanTable t).rows[k]?.map (fun r => r[j]?) =
      t.rows[k]?.map (fun r => r[j]?) :=
  foldl_normalize_frame colonne_testo t j k name hj hname

theorem column_mapper_frame_witness :
    tabellaEsempio.cols[1]? = some "Prezzo" ∧
    "Prezzo" ∉ colonne_testo ∧
    ((cleanTable tabellaEsempio).cols = tabellaEsempio.cols ∧
     (cleanTable tabellaEsempio).rows.length = tabellaEsempio.rows.length ∧
     (cleanTable tabellaEsempio).rows[0]?.map (fun r => r[1]?) =
       tabellaEsempio.rows[0]?.map (fun r => r[1]?)) :=
  ⟨rfl, by decide, column_mapper_frame tabellaEsempio 1 0 "Prezzo" rfl (by decide)⟩

theorem splitSep_ne_nil (sep : Char) : ∀ (l : List Char), splitSep sep l ≠ [] := by
  intro l
  cases l with
  | nil => simp [splitSep]
  | cons c rest =>
    cases h : splitSep sep rest with
    | nil => simp [splitSep, h]
    | cons f fs =>
      simp only [splitSep, h]
      by_cases hc : (c == sep) = true
      · simp [hc]
      · simp [hc]

theorem splitSep_no_sep (sep : Char) :
    ∀ (l : List Char), sep ∉ l → splitSep sep l = [l] := by
  intro l
  induction l with
  | nil => intro _; rfl
  | cons c rest ih =>
    intro h
    have hcne : c ≠ sep := fun he => h (by rw [← he]; exact List.mem_cons_self c rest)
    have hc : (c == sep) = false := beq_eq_false_iff_ne.mpr hcne
    have hrest : sep ∉ rest := fun hr => h (List.mem_cons_of_mem c hr)
    simp only [splitSep, ih hrest, hc]
    simp

theorem splitSep_append (sep : Char) :
    ∀ (f rest : List Char), sep ∉ f →
      splitSep sep (f ++ sep :: rest) = f :: splitSep sep rest := by
  intro f
  induction f with
  | nil =>
    intro rest _
    cases h : splitSep sep rest with
    | nil => exact absurd h (splitSep_ne_nil sep rest)
    | cons g gs =>
      simp only [List.nil_append, splitSep, h]
      simp
  | cons c f ih =>
    intro rest h
    have hcne : c ≠ sep := fun he => h (by rw [← he]; exact List.mem_cons_self c f)
    have hc : (c == sep) = false := beq_eq_false_iff_ne.mpr hcne
    have hf : sep ∉ f := fun hr => h (List.mem_cons_of_mem c hr)
    simp only [List.cons_append, splitSep, hc, List.append_eq]
    rw [ih rest hf]
    simp

theorem splitSep_joinSep (sep : Char) :
    ∀ (fields : List (List Char)), fields ≠ [] → (∀ f ∈ fields, sep ∉ f) →
      splitSep sep (joinSep sep fields) = fields := by
  intro fields
  induction fields with
  | nil => intro h _; exact absurd rfl h
  | cons f fs ih =>
    intro _ hno
    cases fs with
    | nil =>
      have h1 : joinSep sep [f] = f := rfl
      rw [h1, splitSep_no_sep sep f (hno f (List.mem_cons_self f []))]
    | cons g gs =>
      have h1 : joinSep sep (f :: g :: gs) = f ++ sep :: joinSep sep (g :: gs) := rfl
      rw [h1, splitSep_append sep f _ (hno f (List.mem_cons_self _ _)),
        ih (by simp) (fun x hx => hno x (List.mem_cons_of_mem f hx))]

/-- Claim C9: writer contract — the serialized output is the header line
of the column names followed by exactly one line per Table row in Table
order; a missing value is written as an empty field; splitting a clean
(unquoted) data line at the semicolons recovers exactly the row's fields,
with no extra row-index field. -/
theorem writer_contract (t : Table) :
    (toCsvLines t).length = t.rows.length + 1 ∧
    (toCsvLines t).head? = some (lineOfFields (t.cols.map csvField)) ∧
    (∀ k : Nat, (toCsvLines t)[k + 1]? =
      (t.rows[k]?).map (fun r => lineOfFields (r.map csvCell))) ∧
    csvCell none = "" ∧
    (∀ r : List (Option String), r ≠ [] →
      r.all (fun v => !csvNeedsQuote (v.getD "")) = true →
      splitSep ';' (lineOfFields (r.map csvCell)).data =
        r.map (fun v => (v.getD "").data)) := by
  refine ⟨?_, rfl, ?_, rfl, ?_⟩
  · simp [toCsvLines]
  · intro k
    show (lineOfFields (t.cols.map csvField) ::
        t.rows.map (fun r => lineOfFields (r.map csvCell)))[k + 1]? = _
    rw [List.getElem?_cons_succ, List.getElem?_map]
  · intro r hne hclean
    rw [List.all_eq_true] at hclean
    have hF : ∀ v ∈ r, (csvCell v).data = (v.getD "").data := by
      intro v hv
      cases v with
      | none => rfl
      | some s =>
        have h2 : csvNeedsQuote s = false := by simpa using hclean (some s) hv
        show (csvField s).data = s.data
        rw [csvField, if_neg (by simp [h2])]
    have hsep : ∀ f ∈ r.map (fun v => (csvCell v).data), (';' : Char) ∉ f := by
      intro f hf
      rcases List.mem_map.mp hf with ⟨v, hv, rfl⟩
      cases v with
      | none => simp [csvCell]
      | some s =>
        have h2 : csvNeedsQuote s = false := by simpa using hclean (some s) hv
        intro hmem
        have hcf : (csvCell (some s)).data = s.data := by
          show (csvField s).data = s.data
          rw [csvField, if_neg (by simp [h2])]
        rw [hcf] at hmem
        unfold csvNeedsQuote at h2
        have hany : s.data.any
            (fun c => c == ';' || c == '"' || c == '\n' || c == '\r') = true :=
          List.any_eq_true.mpr ⟨';', hmem, by decide⟩
        rw [hany] at h2
        exact Bool.noConfusion h2
    have hFne : r.map (fun v => (csvCell v).data) ≠ [] := by
      simp [hne]
    have hline : (lineOfFields (r.map csvCell)).data =
        joinSep ';' (r.map (fun v => (csvCell v).data)) := by
      show joinSep ';' ((r.map csvCell).map String.data) = _
      rw [List.map_map]
      rfl
    rw [hline, splitSep_joinSep ';' _ hFne hsep]
    exact List.map_congr_left hF

theorem writer_contract_witness :
    (toCsvLines tabellaScrittura).length = tabellaScrittura.rows.length + 1 ∧
    splitSep ';' (lineOfFields ([some "Roma Est", none].map csvCell)).data =
      [some "Roma Est", none].map (fun v => (v.getD "").data) :=
  ⟨(writer_contract tabellaScrittura).1,
   (writer_contract tabellaScrittura).2.2.2.2 [some "Roma Est", none]
     (by decide) (by decide)⟩
